import Mathlib

/-!
Verification development for the coordinate-mapping and row-layout core of a
linear genome-visualization tool.  Coordinates are modelled as integers: the
JavaScript code treats them as exact numbers, every example of the
specification is integral, and no operation of the modelled core divides a
coordinate (the one genuine division, the pixels-per-base ratio of the
feature placer, is modelled exactly over the rationals).  Thrown exceptions
are modelled as `Except` values, and JavaScript object identity of `Feature`
instances as an explicit numeric handle carried by each feature.
-/

/-- Half-open numeric interval.  Source: `OpenInterval` with fields `start`
and `end`; the `end` field is called `stop` here because `end` is a reserved
word in Lean. -/
structure OpenInterval where
  start : ℤ
  stop : ℤ
deriving DecidableEq, Repr

/-- Length of a half-open interval, `end - start`. -/
def OpenInterval.getLength (i : OpenInterval) : ℤ := i.stop - i.start

/-- Modelled from the spec: `OpenInterval.getOverlap` (the class itself is not
among the provided sources) returns the intersection interval, or none if
`max(start) ≥ min(end)` — touching endpoints do not overlap. -/
def OpenInterval.getOverlap (self other : OpenInterval) : Option OpenInterval :=
  let intersectionStart := max self.start other.start
  let intersectionEnd := min self.stop other.stop
  if intersectionStart < intersectionEnd then
    some ⟨intersectionStart, intersectionEnd⟩
  else
    none

/-- Genomic locus.  Source: `ChromosomeInterval(chr, start, end)`; the `end`
field is called `stop` here because `end` is a reserved word in Lean. -/
structure ChromosomeInterval where
  chr : String
  start : ℤ
  stop : ℤ
deriving DecidableEq, Repr

/-- Length of a genomic locus. -/
def ChromosomeInterval.getLength (c : ChromosomeInterval) : ℤ := c.stop - c.start

/-- Immutable named entity anchored to a genomic locus.  Source: `Feature`.
The `id` field models JavaScript object identity (reference equality): two
`Feature` values are the same object exactly when all fields, `id` included,
agree.  Distinct allocations carry distinct ids. -/
structure Feature where
  name : String
  locus : ChromosomeInterval
  id : ℕ
deriving DecidableEq, Repr

/-- Accessor for the feature's name. -/
def Feature.getName (f : Feature) : String := f.name

/-- Accessor for the feature's locus. -/
def Feature.getLocus (f : Feature) : ChromosomeInterval := f.locus

/-- Length of a feature, the length of its locus. -/
def Feature.getLength (f : Feature) : ℤ := f.locus.getLength

/-- Placeholder feature used only as the default of list lookups whose index
is proved to be in bounds. -/
def dummyFeature : Feature := ⟨"", ⟨"", 0, 0⟩, 0⟩

instance : Inhabited Feature := ⟨dummyFeature⟩

/-- Sub-range of a feature in feature-local coordinates.  Source:
`FeatureSegment(feature, relativeStart, relativeEnd)`. -/
structure FeatureSegment where
  feature : Feature
  relativeStart : ℤ
  relativeEnd : ℤ
deriving DecidableEq, Repr

/-- Length of a feature segment. -/
def FeatureSegment.getLength (s : FeatureSegment) : ℤ := s.relativeEnd - s.relativeStart

/-- The segment covering a whole feature; models the JavaScript constructor
defaults `new FeatureSegment(feature)` = relative range `[0, length)`. -/
def fullSegment (f : Feature) : FeatureSegment := ⟨f, 0, f.getLength⟩

/-- Genomic locus derived from a segment by offsetting the feature's own
locus.  Modelled from the spec: a `FeatureSegment` "derives a genomic locus by
offsetting the feature's own locus". -/
def FeatureSegment.getLocus (s : FeatureSegment) : ChromosomeInterval :=
  ⟨s.feature.locus.chr, s.feature.locus.start + s.relativeStart,
    s.feature.locus.start + s.relativeEnd⟩

/-- Modelled from the spec: `FeatureSegment.getGenomeOverlap` (not among the
provided sources) intersects the segment's derived genomic locus with a query
locus — half-open, requiring equal `chr` — and returns the overlap as a
segment of the same feature, or none when the intersection is empty. -/
def FeatureSegment.getGenomeOverlap (s : FeatureSegment) (chrInterval : ChromosomeInterval) :
    Option FeatureSegment :=
  let locus := s.getLocus
  if locus.chr = chrInterval.chr then
    let intersectionStart := max locus.start chrInterval.start
    let intersectionEnd := min locus.stop chrInterval.stop
    if intersectionStart < intersectionEnd then
      some ⟨s.feature, intersectionStart - s.feature.locus.start,
        intersectionEnd - s.feature.locus.start⟩
    else
      none
  else
    none

/-- Modelled from the spec: `FeatureSegment.getOverlap` (not among the
provided sources) supports overlap of a segment "against another segment of
the same feature": the intersection of the two relative ranges, half-open, or
none when the features differ or the intersection is empty. -/
def FeatureSegment.getOverlap (s other : FeatureSegment) : Option FeatureSegment :=
  if s.feature = other.feature then
    let intersectionStart := max s.relativeStart other.relativeStart
    let intersectionEnd := min s.relativeEnd other.relativeEnd
    if intersectionStart < intersectionEnd then
      some ⟨s.feature, intersectionStart, intersectionEnd⟩
    else
      none
  else
    none

/-- Kinds of synchronous errors thrown by the modelled code: `RangeError`,
the generic construction `Error` of the `NavigationContext` constructor, and
the parse failure of `ChromosomeInterval.parse`.  Message strings are
immaterial to every claim and are omitted. -/
inductive NavErr where
  | rangeError : NavErr
  | constructionError : NavErr
  | parseError : NavErr
deriving DecidableEq, Repr

/-- The value of an `Except` when it is `ok`, or a default. -/
def okValue {ε α : Type} (e : Except ε α) (d : α) : α :=
  match e with
  | .ok a => a
  | .error _ => d

/-- Modelled from the spec: the drawing model is an external collaborator,
"an abstract, deterministic linear transform" from context coordinates to
pixel coordinates, consumed but not implemented by this code.  Only the field
`baseToX` is needed here. -/
structure LinearDrawingModel where
  baseToX : ℤ → ℤ

/-- Modelled from the spec: `baseSpanToXSpan` maps a context-coordinate
interval to the pixel interval with transformed endpoints. -/
def LinearDrawingModel.baseSpanToXSpan (m : LinearDrawingModel) (i : OpenInterval) :
    OpenInterval :=
  ⟨m.baseToX i.start, m.baseToX i.stop⟩

/-- Configuration of `IntervalArranger`: a drawing model, the maximum row
count `numRows`, and the per-interval horizontal padding function
`getPadding`.  Source: the `IntervalArranger` constructor. -/
structure IntervalArranger where
  drawModel : LinearDrawingModel
  numRows : ℤ
  getPadding : OpenInterval → ℤ

/-- Ordering used by `IntervalArranger._sortIntervals`: ascending by `start`;
when starts are equal, the longer interval comes first.  This is the "may
come before" relation induced by the JavaScript comparator
`(a, b) => a.start - b.start`, falling back to `b.getLength() - a.getLength()`
on ties. -/
def sortLE (a b : OpenInterval) : Prop :=
  a.start < b.start ∨ (a.start = b.start ∧ b.getLength ≤ a.getLength)

instance : DecidableRel sortLE := fun a b =>
  inferInstanceAs (Decidable (a.start < b.start ∨ (a.start = b.start ∧ b.getLength ≤ a.getLength)))

/-- Source: `IntervalArranger._sortIntervals`, which sorts with the comparator
above via `Array.prototype.sort`.  JavaScript's sort is stable, and a stable
sort under the total preorder `sortLE` has a unique result, so the stable
`List.insertionSort` models it exactly.  The in-place mutation of the caller's
array is modelled separately by `arrangeWithEffect`. -/
def sortIntervals (intervals : List OpenInterval) : List OpenInterval :=
  List.insertionSort sortLE intervals

/-- Comparison of a row's rightmost occupied pixel coordinate against a
padded start; `none` models the `-Infinity` initial value, which every
coordinate exceeds. -/
def maxLt (maxX : Option ℤ) (x : ℤ) : Bool :=
  match maxX with
  | none => true
  | some m => decide (m < x)

/-- The main loop of `IntervalArranger.arrange`: for each interval in the
given (already sorted) order, find the first row whose occupied coordinate is
less than the padded pixel start, record the row index (or `-1`), and advance
that row's occupied coordinate to the pixel end plus padding. -/
def arrangeGo (cfg : IntervalArranger) : List (Option ℤ) → List OpenInterval → List ℤ
  | _, [] => []
  | maxXs, interval :: rest =>
    let horizontalPadding := cfg.getPadding interval
    let startX := cfg.drawModel.baseToX interval.start - horizontalPadding
    match maxXs.findIdx? (fun maxX => maxLt maxX startX) with
    | none => (-1) :: arrangeGo cfg maxXs rest
    | some row =>
      let endX := cfg.drawModel.baseToX interval.stop
      (Int.ofNat row) :: arrangeGo cfg (maxXs.set row (some (endX + horizontalPadding))) rest

/-- Source: `IntervalArranger.arrange`.  If `numRows ≤ 0` every interval gets
row `-1`; otherwise row indices are produced by the first-fit loop over the
sorted intervals, all rows starting unoccupied. -/
def arrange (cfg : IntervalArranger) (intervals : List OpenInterval) : List ℤ :=
  if cfg.numRows ≤ 0 then
    List.replicate intervals.length (-1)
  else
    arrangeGo cfg (List.replicate cfg.numRows.toNat none) (sortIntervals intervals)

/-- Source: `IntervalArranger.arrange`, together with the state of the
caller's interval array after the call.  `_sortIntervals` uses
`Array.prototype.sort`, which sorts in place, so unless the `numRows ≤ 0`
early return is taken the input array ends up in sorted order. -/
def arrangeWithEffect (cfg : IntervalArranger) (intervals : List OpenInterval) :
    List ℤ × List OpenInterval :=
  if cfg.numRows ≤ 0 then
    (List.replicate intervals.length (-1), intervals)
  else
    (arrange cfg intervals, sortIntervals intervals)

/-- One step of the first-fit state update: the occupied-coordinates list
after processing one interval. -/
def arrangeStep (cfg : IntervalArranger) (maxXs : List (Option ℤ)) (interval : OpenInterval) :
    List (Option ℤ) :=
  let horizontalPadding := cfg.getPadding interval
  let startX := cfg.drawModel.baseToX interval.start - horizontalPadding
  match maxXs.findIdx? (fun maxX => maxLt maxX startX) with
  | none => maxXs
  | some row =>
    let endX := cfg.drawModel.baseToX interval.stop
    maxXs.set row (some (endX + horizontalPadding))

/-- Row-occupancy state after the first `k` intervals of a sorted list have
been processed, starting from the given initial state. -/
def stateAfter (cfg : IntervalArranger) (init : List (Option ℤ)) (sorted : List OpenInterval)
    (k : ℕ) : List (Option ℤ) :=
  (sorted.take k).foldl (arrangeStep cfg) init

/-- The row that first-fit assigns to the `k`-th interval of a sorted list
(index into the sorted order), or `-1` when no row fits. -/
def rowAt (cfg : IntervalArranger) (init : List (Option ℤ)) (sorted : List OpenInterval)
    (k : ℕ) : ℤ :=
  let interval := sorted.getD k ⟨0, 0⟩
  let horizontalPadding := cfg.getPadding interval
  let startX := cfg.drawModel.baseToX interval.start - horizontalPadding
  match (stateAfter cfg init sorted k).findIdx? (fun maxX => maxLt maxX startX) with
  | none => -1
  | some row => Int.ofNat row

/-- A second definition following the spec's words for claim C4: first-fit
rows computed over the sorted order, but returned "in the original input
order" — the `i`-th output is the row assigned to the `i`-th interval as
originally passed in.  Sorting is done on index-tagged intervals so each row
can be routed back to its original position. -/
def specArrangeOriginalOrder (cfg : IntervalArranger) (intervals : List OpenInterval) :
    List ℤ :=
  if cfg.numRows ≤ 0 then
    List.replicate intervals.length (-1)
  else
    let tagged := intervals.enum
    let sortedTagged := List.insertionSort (fun p q => sortLE p.2 q.2) tagged
    let rows := arrangeGo cfg (List.replicate cfg.numRows.toNat none) (sortedTagged.map (fun p => p.2))
    (List.range intervals.length).map fun i =>
      match sortedTagged.findIdx? (fun p => p.1 == i) with
      | none => -1
      | some j => rows.getD j (-1)

/-- Identity pixel transform used in concrete examples (one pixel per base,
view starting at zero). -/
def identityDrawModel : LinearDrawingModel := ⟨fun x => x⟩

/-- Two-row arranger with zero padding over the identity transform, as in the
spec's arrangement example. -/
def exampleArranger : IntervalArranger := ⟨identityDrawModel, 2, fun _ => 0⟩

/-- Arranger configured with no rows at all. -/
def noRowArranger : IntervalArranger := ⟨identityDrawModel, 0, fun _ => 0⟩

lemma arrangeGo_length (cfg : IntervalArranger) (sorted : List OpenInterval) :
    ∀ maxXs : List (Option ℤ), (arrangeGo cfg maxXs sorted).length = sorted.length := by
  induction sorted with
  | nil => intro maxXs; simp [arrangeGo]
  | cons interval rest ih =>
    intro maxXs
    simp only [arrangeGo]
    cases hfind : maxXs.findIdx?
        (fun maxX => maxLt maxX (cfg.drawModel.baseToX interval.start - cfg.getPadding interval)) with
    | none => simp [hfind, ih]
    | some row => simp [hfind, ih]

lemma arrangeGo_getD (cfg : IntervalArranger) (sorted : List OpenInterval) :
    ∀ (maxXs : List (Option ℤ)) (i : ℕ), i < sorted.length →
      (arrangeGo cfg maxXs sorted).getD i 0 = rowAt cfg maxXs sorted i := by
  induction sorted with
  | nil => intro maxXs i hi; simp at hi
  | cons interval rest ih =>
    intro maxXs i hi
    cases i with
    | zero =>
      simp only [arrangeGo, rowAt, stateAfter, List.take_zero, List.foldl_nil, List.getD]
      cases hfind : maxXs.findIdx?
          (fun maxX => maxLt maxX (cfg.drawModel.baseToX interval.start - cfg.getPadding interval)) with
      | none => simp [hfind]
      | some row => simp [hfind]
    | succ j =>
      have hj : j < rest.length := by simpa using Nat.lt_of_succ_lt_succ hi
      have hstep : stateAfter cfg maxXs (interval :: rest) (j + 1) =
          stateAfter cfg (arrangeStep cfg maxXs interval) rest j := by
        simp [stateAfter, List.take_succ_cons]
      simp only [arrangeGo]
      cases hfind : maxXs.findIdx?
          (fun maxX => maxLt maxX (cfg.drawModel.baseToX interval.start - cfg.getPadding interval)) with
      | none =>
        have harr : arrangeStep cfg maxXs interval = maxXs := by
          simp [arrangeStep, hfind]
        simp only [hfind, List.getD_cons_succ]
        rw [ih maxXs j hj]
        simp [rowAt, hstep, harr]
      | some row =>
        have harr : arrangeStep cfg maxXs interval =
            maxXs.set row (some (cfg.drawModel.baseToX interval.stop + cfg.getPadding interval)) := by
          simp [arrangeStep, hfind]
        simp only [hfind, List.getD_cons_succ]
        rw [ih _ j hj]
        simp [rowAt, hstep, harr]

/-- Claim C3: `IntervalArranger.arrange` implements deterministic first-fit.
If `numRows ≤ 0` every interval gets row `-1`.  With 2 rows and intervals
`A=[0,10)`, `B=[5,15)`, `C=[12,20)` processed over the identity pixel
transform with zero padding, A gets row 0, B gets row 1, C gets row 0, and a
fourth interval `D=[13,18)` overlapping both rows' occupied ranges gets
`-1`. -/
theorem claimC3_first_fit :
    (∀ (cfg : IntervalArranger) (intervals : List OpenInterval), cfg.numRows ≤ 0 →
      arrange cfg intervals = List.replicate intervals.length (-1)) ∧
    arrange exampleArranger [⟨0, 10⟩, ⟨5, 15⟩, ⟨12, 20⟩, ⟨13, 18⟩] = [0, 1, 0, -1] := by
  constructor
  · intro cfg intervals h
    unfold arrange
    rw [if_pos h]
  · decide

/-- Claim C3 witness: the `numRows ≤ 0` clause of the theorem applied to a
zero-row arranger on a concrete singleton input. -/
theorem claimC3_first_fit_witness :
    arrange noRowArranger [⟨0, 1⟩] = List.replicate 1 (-1) :=
  claimC3_first_fit.1 noRowArranger [⟨0, 1⟩] (by decide)

/-- Claim C4 counterexample: on input `[B, A]` with `B=[5,15)` and
`A=[0,10)`, the code returns `[0, 1]` — the rows of the internally sorted
order `[A, B]` — whereas rows aligned with the original input order would be
`[1, 0]`.  The claim that the `i`-th returned index is the row of the `i`-th
interval as originally passed in is therefore false. -/
theorem claimC4_counterexample :
    arrange exampleArranger [⟨5, 15⟩, ⟨0, 10⟩] = [0, 1] ∧
    specArrangeOriginalOrder exampleArranger [⟨5, 15⟩, ⟨0, 10⟩] = [1, 0] ∧
    ([0, 1] : List ℤ) ≠ [1, 0] := by
  refine ⟨by decide, by decide, by decide⟩

/-- Claim C4 amended: the array of row indices returned by `arrange` is
aligned with the internally sorted order, not the original input order — it
has one entry per input interval, and its `i`-th entry is the first-fit row
of the `i`-th interval of the sorted list. -/
theorem claimC4_amended :
    ∀ (cfg : IntervalArranger) (intervals : List OpenInterval), 0 < cfg.numRows →
      (arrange cfg intervals).length = intervals.length ∧
      ∀ i, i < intervals.length →
        (arrange cfg intervals).getD i 0 =
          rowAt cfg (List.replicate cfg.numRows.toNat none) (sortIntervals intervals) i := by
  intro cfg intervals h
  have hif : ¬ cfg.numRows ≤ 0 := by omega
  have hlen : (sortIntervals intervals).length = intervals.length := by
    simp [sortIntervals]
  constructor
  · unfold arrange
    rw [if_neg hif]
    rw [arrangeGo_length]
    exact hlen
  · intro i hi
    unfold arrange
    rw [if_neg hif]
    exact arrangeGo_getD cfg (sortIntervals intervals) _ i (by omega)

/-- Claim C4 witness: the amended theorem applied to the two-interval
example, giving the first returned index as the row of the first interval in
sorted order. -/
theorem claimC4_amended_witness :
    (arrange exampleArranger [⟨5, 15⟩, ⟨0, 10⟩]).getD 0 0 =
      rowAt exampleArranger (List.replicate exampleArranger.numRows.toNat none)
        (sortIntervals [⟨5, 15⟩, ⟨0, 10⟩]) 0 :=
  (claimC4_amended exampleArranger [⟨5, 15⟩, ⟨0, 10⟩] (by decide)).2 0 (by decide)

/-- Claim C9 counterexample: `arrange` does not leave its input interval list
unchanged — `_sortIntervals` sorts the caller's array in place, so after the
call the unsorted input `[B, A]` has become `[A, B]`. -/
theorem claimC9_counterexample :
    (arrangeWithEffect exampleArranger [⟨5, 15⟩, ⟨0, 10⟩]).2 = [⟨0, 10⟩, ⟨5, 15⟩] ∧
    (arrangeWithEffect exampleArranger [⟨5, 15⟩, ⟨0, 10⟩]).2 ≠ [⟨5, 15⟩, ⟨0, 10⟩] := by
  refine ⟨by decide, by decide⟩

/-- Claim C9 amended: the only side effect of `arrange` is the in-place
reorder of its input list: the list after the call is a permutation of the
original (the same elements), and when `numRows` is positive it is exactly
the sorted order. -/
theorem claimC9_amended :
    ∀ (cfg : IntervalArranger) (intervals : List OpenInterval),
      List.Perm ((arrangeWithEffect cfg intervals).2) intervals ∧
      (0 < cfg.numRows → (arrangeWithEffect cfg intervals).2 = sortIntervals intervals) := by
  intro cfg intervals
  constructor
  · unfold arrangeWithEffect
    split
    · exact List.Perm.refl intervals
    · exact List.perm_insertionSort sortLE intervals
  · intro h
    unfold arrangeWithEffect
    rw [if_neg (by omega)]

/-- Claim C9 witness: the amended theorem applied to the two-interval
example. -/
theorem claimC9_amended_witness :
    (arrangeWithEffect exampleArranger [⟨5, 15⟩, ⟨0, 10⟩]).2 =
      sortIntervals [⟨5, 15⟩, ⟨0, 10⟩] :=
  (claimC9_amended exampleArranger [⟨5, 15⟩, ⟨0, 10⟩]).2 (by decide)

/-- The special chromosome that gaps lie in. -/
def GAP_CHR : String := ""

/-- An implicit coordinate system built from an ordered list of features.
Source: class `NavigationContext`.  Only the constructor arguments are
stored; the derived internal state (`_sortedFeatureStarts`,
`_startCoordinateForFeature`, `_featuresForChr`, `_totalBases`) is recomputed
by the definitions below exactly as the constructor builds it. -/
structure NavigationContext where
  name : String
  features : List Feature
deriving DecidableEq, Repr

/-- Source: `NavigationContext.isGapFeature` — whether the feature represents
a gap in the genome. -/
def NavigationContext.isGapFeature (feature : Feature) : Bool :=
  decide (feature.getLocus.chr = GAP_CHR)

/-- Source: `NavigationContext.makeGap` — a special "feature" representing a
gap.  `Math.round` is the identity on the integral lengths modelled here; the
`id` argument models the identity of the freshly allocated object. -/
def NavigationContext.makeGap (length : ℤ) (name : String) (id : ℕ) : Feature :=
  ⟨name, ⟨GAP_CHR, 0, length⟩, id⟩

/-- Sum of the lengths of a list of features. -/
def sumLengths : List Feature → ℤ
  | [] => 0
  | f :: rest => f.getLength + sumLengths rest

/-- Prefix-sum start coordinates of a feature list, offset by `t`: exactly
the values the constructor pushes onto `_sortedFeatureStarts` (for `t = 0`),
one per feature in order. -/
def startsFrom (t : ℤ) : List Feature → List ℤ
  | [] => []
  | f :: rest => t :: startsFrom (t + f.getLength) rest

/-- The `_sortedFeatureStarts` array built by the constructor. -/
def NavigationContext.sortedFeatureStarts (ctx : NavigationContext) : List ℤ :=
  startsFrom 0 ctx.features

/-- Source: `getTotalBases` — the `_totalBases` accumulator after
construction. -/
def NavigationContext.getTotalBases (ctx : NavigationContext) : ℤ :=
  sumLengths ctx.features

/-- The constructor's duplicate detection: it asks
`_startCoordinateForFeature.has(feature)` — a `Map` keyed by object identity
holding every previously processed feature — before inserting each feature. -/
def containsDupGo (seen : List Feature) : List Feature → Bool
  | [] => false
  | f :: rest => decide (f ∈ seen) || containsDupGo (f :: seen) rest

/-- Source: the `NavigationContext` constructor.  It iterates the features,
throwing a (construction) `Error` when the identity-keyed map already holds
the feature; on success the instance wraps the arguments, all other internal
state being derived.  Note the check is by object identity, not by name. -/
def NavigationContext.make (name : String) (features : List Feature) :
    Except NavErr NavigationContext :=
  if containsDupGo [] features then
    .error .constructionError
  else
    .ok ⟨name, features⟩

/-- Source: `getIsValidBase` — whether `0 ≤ base < totalBases`. -/
def NavigationContext.getIsValidBase (ctx : NavigationContext) (base : ℤ) : Bool :=
  decide (0 ≤ base) && decide (base < ctx.getTotalBases)

/-- Source: `getFeatureStart` — the identity-keyed `Map` lookup of a
feature's recorded start coordinate, throwing a `RangeError` when the feature
is not in this context.  The map's entries are, in insertion order, each
feature paired with its prefix-sum start. -/
def NavigationContext.getFeatureStart (ctx : NavigationContext) (feature : Feature) :
    Except NavErr ℤ :=
  match (ctx.features.zip ctx.sortedFeatureStarts).find? (fun p => decide (p.1 = feature)) with
  | none => .error .rangeError
  | some p => .ok p.2

/-- Lodash `_.sortedLastIndex` binary search, exactly as `baseSortedIndex`
with `retHighest`: while `low < high`, probe `mid = ⌊(low+high)/2⌋` and move
`low` past `mid` when `array[mid] ≤ value`, else cut `high` to `mid`.  Fuel
bounds the loop; `length + 1` steps always suffice because `high - low`
strictly decreases. -/
def sortedLastIndexAux (arr : List ℤ) (value : ℤ) : ℕ → ℕ → ℕ → ℕ
  | 0, low, _high => low
  | fuel + 1, low, high =>
    if low < high then
      if arr.getD ((low + high) / 2) 0 ≤ value then
        sortedLastIndexAux arr value fuel ((low + high) / 2 + 1) high
      else
        sortedLastIndexAux arr value fuel low ((low + high) / 2)
    else
      low

/-- Lodash `_.sortedLastIndex(array, value)`: the highest index at which
`value` could be inserted keeping the array sorted. -/
def sortedLastIndex (arr : List ℤ) (value : ℤ) : ℕ :=
  sortedLastIndexAux arr value (arr.length + 1) 0 arr.length

/-- Source: `convertBaseToFeatureCoordinate` — throws a `RangeError` on an
invalid base, else binary-searches `_sortedFeatureStarts` for the containing
feature and returns the zero-length segment at the residual offset. -/
def NavigationContext.convertBaseToFeatureCoordinate (ctx : NavigationContext) (base : ℤ) :
    Except NavErr FeatureSegment :=
  if ctx.getIsValidBase base then
    let index := sortedLastIndex ctx.sortedFeatureStarts base - 1
    let feature := ctx.features.getD index dummyFeature
    let coordinate := base - ctx.sortedFeatureStarts.getD index 0
    .ok ⟨feature, coordinate, coordinate⟩
  else
    .error .rangeError

/-- Source: `convertFeatureSegmentToContextCoordinates` — offset translation
by the feature's recorded start (which throws when the feature is not in this
context). -/
def NavigationContext.convertFeatureSegmentToContextCoordinates (ctx : NavigationContext)
    (segment : FeatureSegment) : Except NavErr OpenInterval :=
  match ctx.getFeatureStart segment.feature with
  | .error e => .error e
  | .ok contextStart =>
    .ok ⟨contextStart + segment.relativeStart, contextStart + segment.relativeEnd⟩

/-- The `_featuresForChr` grouping built by the constructor with
`_.groupBy`: the features whose locus lies on `chr`, in list order; a chr
with no features yields the constructor's `[]` fallback. -/
def NavigationContext.featuresForChr (ctx : NavigationContext) (chr : String) : List Feature :=
  ctx.features.filter (fun f => decide (f.getLocus.chr = chr))

/-- The loop of `convertGenomeIntervalToBases` over the candidate features of
the query's chromosome. -/
def NavigationContext.convertGenomeIntervalToBasesGo (ctx : NavigationContext)
    (chrInterval : ChromosomeInterval) : List Feature → Except NavErr (List OpenInterval)
  | [] => .ok []
  | feature :: rest =>
    match (fullSegment feature).getGenomeOverlap chrInterval with
    | none => ctx.convertGenomeIntervalToBasesGo chrInterval rest
    | some overlap =>
      match ctx.convertFeatureSegmentToContextCoordinates overlap with
      | .error e => .error e
      | .ok contextInterval =>
        match ctx.convertGenomeIntervalToBasesGo chrInterval rest with
        | .error e => .error e
        | .ok restIntervals => .ok (contextInterval :: restIntervals)

/-- Source: `convertGenomeIntervalToBases` — every feature of the query's
chromosome whose locus meets the query contributes one context interval, in
feature order. -/
def NavigationContext.convertGenomeIntervalToBases (ctx : NavigationContext)
    (chrInterval : ChromosomeInterval) : Except NavErr (List OpenInterval) :=
  ctx.convertGenomeIntervalToBasesGo chrInterval (ctx.featuresForChr chrInterval.chr)

/-- Source: `toGaplessCoordinate` — subtracts from `base` the lengths of gap
features preceding the owning feature, plus the in-gap offset when the owning
feature is a gap.  `findIndex` is modelled by `List.findIdx`; the owning
feature always occurs in the list (proved where used), so the JavaScript
`-1`-on-absence behaviour is never exercised. -/
def NavigationContext.toGaplessCoordinate (ctx : NavigationContext) (base : ℤ) :
    Except NavErr ℤ :=
  match ctx.convertBaseToFeatureCoordinate base with
  | .error e => .error e
  | .ok featureCoordinate =>
    let featureIndex := ctx.features.findIdx (fun f => decide (f = featureCoordinate.feature))
    let gapFeaturesBefore :=
      (ctx.features.take featureIndex).filter (fun f => NavigationContext.isGapFeature f)
    let gapBasesBefore := sumLengths gapFeaturesBefore
    let gapBasesTotal :=
      if NavigationContext.isGapFeature featureCoordinate.feature then
        gapBasesBefore + featureCoordinate.relativeStart
      else
        gapBasesBefore
    .ok (base - gapBasesTotal)

/-- The loop of `getFeaturesInInterval`: per feature, skip gaps when
requested, look up the feature's start, intersect its context span with the
query; push the clipped sub-segment on overlap, and on the first non-overlap
after at least one overlap return the results collected so far. -/
def NavigationContext.getFeaturesInIntervalGo (ctx : NavigationContext)
    (queryInterval : OpenInterval) (includeGaps : Bool) :
    List Feature → List FeatureSegment → Except NavErr (List FeatureSegment)
  | [], results => .ok results
  | feature :: rest, results =>
    if !includeGaps && NavigationContext.isGapFeature feature then
      ctx.getFeaturesInIntervalGo queryInterval includeGaps rest results
    else
      match ctx.getFeatureStart feature with
      | .error e => .error e
      | .ok startC =>
        let endC := startC + feature.getLength
        match OpenInterval.getOverlap ⟨startC, endC⟩ queryInterval with
        | some overlap =>
          ctx.getFeaturesInIntervalGo queryInterval includeGaps rest
            (results ++ [⟨feature, overlap.start - startC, overlap.stop - startC⟩])
        | none =>
          if results.length > 0 then
            .ok results
          else
            ctx.getFeaturesInIntervalGo queryInterval includeGaps rest results

/-- Source: `getFeaturesInInterval` — features overlapping the half-open
query, clipped, collected by the loop above with its early break. -/
def NavigationContext.getFeaturesInInterval (ctx : NavigationContext)
    (queryStart queryEnd : ℤ) (includeGaps : Bool := true) :
    Except NavErr (List FeatureSegment) :=
  ctx.getFeaturesInIntervalGo ⟨queryStart, queryEnd⟩ includeGaps ctx.features []

/-- A second definition following the spec's words for claim C5: exactly one
clipped sub-segment per feature whose context span `[start, start+length)`
overlaps the query (skipping gap features when `includeGaps` is false), in
feature order, with `t` the context start of the first remaining feature. -/
def specFeaturesGo (queryInterval : OpenInterval) (includeGaps : Bool) (t : ℤ) :
    List Feature → List FeatureSegment
  | [] => []
  | f :: rest =>
    if !includeGaps && NavigationContext.isGapFeature f then
      specFeaturesGo queryInterval includeGaps (t + f.getLength) rest
    else
      match OpenInterval.getOverlap ⟨t, t + f.getLength⟩ queryInterval with
      | some overlap =>
        ⟨f, overlap.start - t, overlap.stop - t⟩ ::
          specFeaturesGo queryInterval includeGaps (t + f.getLength) rest
      | none => specFeaturesGo queryInterval includeGaps (t + f.getLength) rest

/-- The spec's description of `getFeaturesInInterval` over a whole context. -/
def specFeaturesInInterval (ctx : NavigationContext) (queryStart queryEnd : ℤ)
    (includeGaps : Bool) : List FeatureSegment :=
  specFeaturesGo ⟨queryStart, queryEnd⟩ includeGaps 0 ctx.features

instance {ε α : Type} [DecidableEq ε] [DecidableEq α] : DecidableEq (Except ε α) := fun a b =>
  match a, b with
  | .ok x, .ok y =>
    if h : x = y then .isTrue (congrArg Except.ok h) else .isFalse (fun hh => h (Except.ok.inj hh))
  | .error x, .error y =>
    if h : x = y then .isTrue (congrArg Except.error h)
    else .isFalse (fun hh => h (Except.error.inj hh))
  | .ok _, .error _ => .isFalse (fun hh => Except.noConfusion hh)
  | .error _, .ok _ => .isFalse (fun hh => Except.noConfusion hh)

lemma containsDupGo_eq_false (fs : List Feature) :
    ∀ seen : List Feature, (containsDupGo seen fs = false ↔ (fs.Nodup ∧ ∀ f ∈ fs, f ∉ seen)) := by
  induction fs with
  | nil => intro seen; simp [containsDupGo]
  | cons f rest ih =>
    intro seen
    simp only [containsDupGo, Bool.or_eq_false_iff, decide_eq_false_iff_not, ih (f :: seen),
      List.nodup_cons, List.mem_cons, not_or]
    constructor
    · rintro ⟨hfs, hnd, hrest⟩
      refine ⟨⟨fun hmem => (hrest f hmem).1 rfl, hnd⟩, ?_⟩
      intro g hg
      rcases hg with hg | hg
      · subst hg; exact hfs
      · exact (hrest g hg).2
    · rintro ⟨⟨hfm, hnd⟩, hseen⟩
      refine ⟨hseen f (Or.inl rfl), hnd, ?_⟩
      intro g hg
      exact ⟨fun h => hfm (h ▸ hg), hseen g (Or.inr hg)⟩

lemma make_ok (nm : String) (fs : List Feature) (ctx : NavigationContext)
    (h : NavigationContext.make nm fs = .ok ctx) :
    ctx = ⟨nm, fs⟩ ∧ fs.Nodup := by
  unfold NavigationContext.make at h
  cases hdup : containsDupGo [] fs with
  | false =>
    rw [hdup] at h
    simp at h
    refine ⟨h.symm, ?_⟩
    have := (containsDupGo_eq_false fs []).mp hdup
    exact this.1
  | true =>
    rw [hdup] at h
    simp at h

/-- Claim C2 counterexample: two distinct `Feature` objects sharing the name
"A" are accepted by the constructor — the duplicate check is keyed by object
identity, not by name — so construction does not fail on a duplicated
name. -/
theorem claimC2_counterexample :
    Feature.getName ⟨"A", ⟨"chr1", 0, 10⟩, 0⟩ = Feature.getName ⟨"A", ⟨"chr2", 0, 5⟩, 1⟩ ∧
    NavigationContext.make ("dup") [⟨"A", ⟨"chr1", 0, 10⟩, 0⟩, ⟨"A", ⟨"chr2", 0, 5⟩, 1⟩] =
      .ok ⟨"dup", [⟨"A", ⟨"chr1", 0, 10⟩, 0⟩, ⟨"A", ⟨"chr2", 0, 5⟩, 1⟩]⟩ := by
  refine ⟨by decide, by decide⟩

/-- Claim C2 amended: `NavigationContext` construction fails with a
construction error exactly when the same feature object (same identity)
occurs more than once in the input list, and succeeds otherwise; duplicate
names across distinct feature objects are not detected, and on failure no
context is produced. -/
theorem claimC2_amended :
    ∀ (name : String) (features : List Feature),
      (NavigationContext.make name features = .ok ⟨name, features⟩ ↔ features.Nodup) ∧
      (NavigationContext.make name features = .error .constructionError ↔ ¬ features.Nodup) := by
  intro name features
  have hchar := containsDupGo_eq_false features []
  simp only [List.not_mem_nil, not_false_iff, implies_true, and_true] at hchar
  unfold NavigationContext.make
  cases hdup : containsDupGo [] features with
  | false =>
    have hnodup : features.Nodup := hchar.mp hdup
    simp [hnodup]
  | true =>
    have hnot : ¬ features.Nodup := by
      intro hn
      simp [hchar.mpr hn] at hdup
    simp [hnot]

/-- Claim C2 witness: the amended theorem applied to a list repeating the
same feature object, which is rejected. -/
theorem claimC2_amended_witness :
    NavigationContext.make ("dupW") [⟨"A", ⟨"chr1", 0, 10⟩, 0⟩, ⟨"A", ⟨"chr1", 0, 10⟩, 0⟩] =
      .error .constructionError :=
  (claimC2_amended ("dupW") [⟨"A", ⟨"chr1", 0, 10⟩, 0⟩, ⟨"A", ⟨"chr1", 0, 10⟩, 0⟩]).2.mpr
    (by decide)

lemma sortedLastIndexAux_le (arr : List ℤ) (value : ℤ) :
    ∀ (fuel low high : ℕ), low ≤ high →
      low ≤ sortedLastIndexAux arr value fuel low high ∧
        sortedLastIndexAux arr value fuel low high ≤ high := by
  intro fuel
  induction fuel with
  | zero => intro low high h; simp only [sortedLastIndexAux]; omega
  | succ n ih =>
    intro low high h
    simp only [sortedLastIndexAux]
    by_cases hlh : low < high
    · rw [if_pos hlh]
      by_cases hmid : arr.getD ((low + high) / 2) 0 ≤ value
      · rw [if_pos hmid]
        have := ih ((low + high) / 2 + 1) high (by omega)
        omega
      · rw [if_neg hmid]
        have := ih low ((low + high) / 2) (by omega)
        omega
    · rw [if_neg hlh]
      omega

lemma sortedLastIndexAux_pred (arr : List ℤ) (value : ℤ) :
    ∀ (fuel low high : ℕ), low < sortedLastIndexAux arr value fuel low high →
      arr.getD (sortedLastIndexAux arr value fuel low high - 1) 0 ≤ value := by
  intro fuel
  induction fuel with
  | zero =>
    intro low high h
    simp only [sortedLastIndexAux] at h
    omega
  | succ n ih =>
    intro low high h
    simp only [sortedLastIndexAux] at h ⊢
    by_cases hlh : low < high
    · rw [if_pos hlh] at h ⊢
      by_cases hmid : arr.getD ((low + high) / 2) 0 ≤ value
      · rw [if_pos hmid] at h ⊢
        have hge := (sortedLastIndexAux_le arr value n ((low + high) / 2 + 1) high (by omega)).1
        rcases Nat.lt_or_ge ((low + high) / 2 + 1) (sortedLastIndexAux arr value n ((low + high) / 2 + 1) high) with hgt | hle
        · exact ih _ _ hgt
        · have heq : sortedLastIndexAux arr value n ((low + high) / 2 + 1) high = (low + high) / 2 + 1 := by omega
          rw [heq]
          simpa using hmid
      · rw [if_neg hmid] at h ⊢
        exact ih _ _ h
    · rw [if_neg hlh] at h ⊢
      omega

lemma sortedLastIndexAux_lt (arr : List ℤ) (value : ℤ) :
    ∀ (fuel low high : ℕ), high - low ≤ fuel →
      sortedLastIndexAux arr value fuel low high < high →
      value < arr.getD (sortedLastIndexAux arr value fuel low high) 0 := by
  intro fuel
  induction fuel with
  | zero =>
    intro low high hf h
    simp only [sortedLastIndexAux] at h
    omega
  | succ n ih =>
    intro low high hf h
    simp only [sortedLastIndexAux] at h ⊢
    by_cases hlh : low < high
    · rw [if_pos hlh] at h ⊢
      by_cases hmid : arr.getD ((low + high) / 2) 0 ≤ value
      · rw [if_pos hmid] at h ⊢
        exact ih _ _ (by omega) h
      · rw [if_neg hmid] at h ⊢
        have hle2 := (sortedLastIndexAux_le arr value n low ((low + high) / 2) (by omega)).2
        rcases Nat.lt_or_ge (sortedLastIndexAux arr value n low ((low + high) / 2)) ((low + high) / 2) with hlt | hge
        · exact ih _ _ (by omega) hlt
        · have heq : sortedLastIndexAux arr value n low ((low + high) / 2) = (low + high) / 2 := by omega
          rw [heq]
          omega
    · rw [if_neg hlh] at h ⊢
      omega

lemma sortedLastIndex_le (arr : List ℤ) (value : ℤ) :
    sortedLastIndex arr value ≤ arr.length :=
  (sortedLastIndexAux_le arr value (arr.length + 1) 0 arr.length (Nat.zero_le _)).2

lemma sortedLastIndex_pos (arr : List ℤ) (value : ℤ) (h0 : 0 < arr.length)
    (hv : arr.getD 0 0 ≤ value) : 1 ≤ sortedLastIndex arr value := by
  by_contra hc
  have hz : sortedLastIndex arr value = 0 := by omega
  have hlt := sortedLastIndexAux_lt arr value (arr.length + 1) 0 arr.length (by omega)
    (by unfold sortedLastIndex at hz; omega)
  unfold sortedLastIndex at hz
  rw [hz] at hlt
  omega

lemma sortedLastIndex_pred (arr : List ℤ) (value : ℤ)
    (h1 : 1 ≤ sortedLastIndex arr value) :
    arr.getD (sortedLastIndex arr value - 1) 0 ≤ value :=
  sortedLastIndexAux_pred arr value (arr.length + 1) 0 arr.length (by
    unfold sortedLastIndex at h1
    omega)

lemma startsFrom_length (fs : List Feature) : ∀ t : ℤ, (startsFrom t fs).length = fs.length := by
  induction fs with
  | nil => intro t; simp [startsFrom]
  | cons f rest ih => intro t; simp [startsFrom, ih]

lemma startsFrom_getD (fs : List Feature) :
    ∀ (t : ℤ) (i : ℕ), i < fs.length →
      (startsFrom t fs).getD i 0 = t + sumLengths (fs.take i) := by
  induction fs with
  | nil => intro t i h; simp at h
  | cons f rest ih =>
    intro t i h
    cases i with
    | zero => simp [startsFrom, sumLengths]
    | succ j =>
      have hj : j < rest.length := by simpa using Nat.lt_of_succ_lt_succ h
      simp only [startsFrom, List.getD_cons_succ, List.take_succ_cons, sumLengths]
      rw [ih (t + f.getLength) j hj]
      ring

lemma find_zip_startsFrom (f : Feature) (post : List Feature) :
    ∀ (pre : List Feature) (t : ℤ), f ∉ pre →
      ((pre ++ f :: post).zip (startsFrom t (pre ++ f :: post))).find?
          (fun p => decide (p.1 = f)) = some (f, t + sumLengths pre) := by
  intro pre
  induction pre with
  | nil =>
    intro t h
    simp only [List.nil_append, startsFrom, List.zip_cons_cons]
    rw [List.find?_cons_of_pos _ (by simp)]
    simp [sumLengths]
  | cons g pre ih =>
    intro t h
    have hgf : g ≠ f := fun he => h (by simp [he])
    have hfp : f ∉ pre := fun hm => h (List.mem_cons_of_mem g hm)
    simp only [List.cons_append, startsFrom, List.zip_cons_cons, List.append_eq]
    rw [List.find?_cons_of_neg _ (by simp [hgf])]
    rw [ih (t + g.getLength) hfp]
    rw [show t + g.getLength + sumLengths pre = t + sumLengths (g :: pre) from by
      simp [sumLengths]; ring]

lemma getFeatureStart_of_split (nm : String) (pre post : List Feature) (f : Feature)
    (hnp : f ∉ pre) :
    NavigationContext.getFeatureStart ⟨nm, pre ++ f :: post⟩ f = .ok (sumLengths pre) := by
  unfold NavigationContext.getFeatureStart NavigationContext.sortedFeatureStarts
  rw [find_zip_startsFrom f post pre 0 hnp]
  simp

/-- Claim C1: for every successfully built `NavigationContext` and every
valid context coordinate `b`, converting `b` to a feature coordinate and
back to context coordinates yields the zero-length interval `[b, b]` — its
start equals `b` and, the segment being zero-length, its end equals `b` as
well. -/
theorem claimC1_round_trip :
    ∀ (nm : String) (fs : List Feature) (ctx : NavigationContext) (b : ℤ),
      NavigationContext.make nm fs = .ok ctx →
      ctx.getIsValidBase b = true →
      (ctx.convertBaseToFeatureCoordinate b).bind
          (fun segment => ctx.convertFeatureSegmentToContextCoordinates segment) =
        .ok ⟨b, b⟩ := by
  intro nm fs ctx b hmk hval
  obtain ⟨hctx, hnd⟩ := make_ok nm fs ctx hmk
  subst hctx
  have hval' : 0 ≤ b ∧ b < sumLengths fs := by
    simpa [NavigationContext.getIsValidBase, NavigationContext.getTotalBases] using hval
  have hne : 0 < fs.length := by
    rcases fs with _ | ⟨f, rest⟩
    · exfalso
      simp [sumLengths] at hval'
      omega
    · simp
  have hlen : (startsFrom 0 fs).length = fs.length := startsFrom_length fs 0
  have hr_le : sortedLastIndex (startsFrom 0 fs) b ≤ fs.length := by
    have := sortedLastIndex_le (startsFrom 0 fs) b
    omega
  have hr_pos : 1 ≤ sortedLastIndex (startsFrom 0 fs) b := by
    apply sortedLastIndex_pos _ _ (by omega)
    rw [startsFrom_getD fs 0 0 (by omega)]
    simpa [sumLengths] using hval'.1
  have hidx : sortedLastIndex (startsFrom 0 fs) b - 1 < fs.length := by omega
  set index := sortedLastIndex (startsFrom 0 fs) b - 1 with hidxdef
  set f := fs.getD index dummyFeature with hfdef
  set pre := fs.take index with hpredef
  set post := fs.drop (index + 1) with hpostdef
  have hsplit : fs = pre ++ f :: post := by
    rw [hpredef, hpostdef, hfdef]
    rw [List.getD_eq_getElem fs dummyFeature hidx]
    rw [← List.drop_eq_getElem_cons hidx]
    exact (List.take_append_drop index fs).symm
  have hnotmem : f ∉ pre := by
    intro hmem
    have hnd2 := hnd
    rw [hsplit, List.nodup_append] at hnd2
    exact hnd2.2.2 hmem (List.mem_cons_self f post)
  have hstart : (startsFrom 0 fs).getD index 0 = sumLengths pre := by
    rw [startsFrom_getD fs 0 index hidx]
    rw [hpredef]
    ring
  have hgfs : NavigationContext.getFeatureStart ⟨nm, fs⟩ f = .ok (sumLengths pre) := by
    rw [show (⟨nm, fs⟩ : NavigationContext) = ⟨nm, pre ++ f :: post⟩ from by rw [← hsplit]]
    exact getFeatureStart_of_split nm pre post f hnotmem
  unfold NavigationContext.convertBaseToFeatureCoordinate
  rw [if_pos hval]
  show (Except.ok (⟨f, b - (startsFrom 0 fs).getD index 0, b - (startsFrom 0 fs).getD index 0⟩ :
      FeatureSegment)).bind _ = _
  rw [hstart]
  show NavigationContext.convertFeatureSegmentToContextCoordinates _ _ = _
  unfold NavigationContext.convertFeatureSegmentToContextCoordinates
  rw [hgfs]
  have harith : sumLengths pre + (b - sumLengths pre) = b := by ring
  simp [harith]

/-- Claim C1 witness: the round trip on a one-feature context at base 3. -/
theorem claimC1_round_trip_witness :
    ((⟨"c1", [⟨"chr1", ⟨"chr1", 0, 10⟩, 0⟩]⟩ : NavigationContext).convertBaseToFeatureCoordinate
        3).bind
        (fun segment =>
          (⟨"c1", [⟨"chr1", ⟨"chr1", 0, 10⟩, 0⟩]⟩ :
              NavigationContext).convertFeatureSegmentToContextCoordinates segment) =
      .ok ⟨3, 3⟩ :=
  claimC1_round_trip ("c1") [⟨"chr1", ⟨"chr1", 0, 10⟩, 0⟩]
    ⟨"c1", [⟨"chr1", ⟨"chr1", 0, 10⟩, 0⟩]⟩ 3 (by decide) (by decide)

lemma findIdx_eq_of_nodup :
    ∀ (fs : List Feature) (i : ℕ) (x : Feature), fs.Nodup → ∀ hi : i < fs.length,
      fs[i] = x → fs.findIdx (fun f => decide (f = x)) = i := by
  intro fs
  induction fs with
  | nil => intro i x _ hi; simp at hi
  | cons g rest ih =>
    intro i x hnd hi hget
    rcases List.nodup_cons.mp hnd with ⟨hgn, hrest⟩
    cases i with
    | zero =>
      simp at hget
      subst hget
      simp [List.findIdx_cons]
    | succ j =>
      have hj : j < rest.length := by simpa using Nat.lt_of_succ_lt_succ hi
      have hget' : rest[j] = x := by simpa using hget
      have hgx : g ≠ x := by
        intro he
        have hxm : x ∈ rest := hget' ▸ List.getElem_mem hj
        exact hgn (he ▸ hxm)
      rw [List.findIdx_cons]
      simp [hgx, ih j x hrest hj hget']

/-- The three-feature context of the spec's gapless example: a 10bp ordinary
feature, a 10bp gap, and another 10bp ordinary feature. -/
def ctxGapless : NavigationContext :=
  ⟨"gapless", [⟨"left", ⟨"chr1", 0, 10⟩, 0⟩, NavigationContext.makeGap 10 ("Gap") 1,
    ⟨"right", ⟨"chr1", 20, 30⟩, 2⟩]⟩

/-- Claim C7: on the context `[10bp feature, 10bp gap, 10bp feature]`,
`toGaplessCoordinate` returns 5 for input 5, 10 for input 15, and 15 for
input 25; and in general, on any successfully built context it subtracts
from a valid base the total length of the gap features preceding the owning
feature, plus the in-gap offset when the owning feature is itself a gap. -/
theorem claimC7_gapless :
    (ctxGapless.toGaplessCoordinate 5 = .ok 5 ∧
      ctxGapless.toGaplessCoordinate 15 = .ok 10 ∧
      ctxGapless.toGaplessCoordinate 25 = .ok 15) ∧
    (∀ (nm : String) (fs : List Feature) (ctx : NavigationContext) (b : ℤ)
        (seg : FeatureSegment) (i : ℕ),
      NavigationContext.make nm fs = .ok ctx →
      ctx.convertBaseToFeatureCoordinate b = .ok seg →
      i < fs.length →
      fs.getD i dummyFeature = seg.feature →
      ctx.toGaplessCoordinate b =
        .ok (b - (sumLengths ((fs.take i).filter (fun f => NavigationContext.isGapFeature f)) +
          (if NavigationContext.isGapFeature seg.feature then seg.relativeStart else 0)))) := by
  constructor
  · refine ⟨by decide, by decide, by decide⟩
  · intro nm fs ctx b seg i hmk hconv hi hgd
    obtain ⟨hctx, hnd⟩ := make_ok nm fs ctx hmk
    subst hctx
    have hget : fs[i] = seg.feature := by
      rw [← hgd, List.getD_eq_getElem fs dummyFeature hi]
    have hfind : fs.findIdx (fun f => decide (f = seg.feature)) = i :=
      findIdx_eq_of_nodup fs i seg.feature hnd hi hget
    simp only [NavigationContext.toGaplessCoordinate, hconv, hfind]
    cases hg : NavigationContext.isGapFeature seg.feature with
    | false => simp [hg]
    | true => simp [hg]

/-- Claim C7 witness: the general clause of the theorem applied to the
gapless example context at base 15, whose owning feature is the gap at
index 1 with in-gap offset 5. -/
theorem claimC7_gapless_witness :
    ctxGapless.toGaplessCoordinate 15 =
      .ok (15 - (sumLengths ((ctxGapless.features.take 1).filter
          (fun f => NavigationContext.isGapFeature f)) +
        (if NavigationContext.isGapFeature (NavigationContext.makeGap 10 ("Gap") 1) then
          (5 : ℤ) else 0))) :=
  claimC7_gapless.2 ("gapless") ctxGapless.features ctxGapless 15
    ⟨NavigationContext.makeGap 10 ("Gap") 1, 5, 5⟩ 1 (by decide) (by decide) (by decide)
    (by decide)

lemma getOverlap_eq_some_imp (a b ov : OpenInterval)
    (h : OpenInterval.getOverlap a b = some ov) :
    max a.start b.start < min a.stop b.stop := by
  unfold OpenInterval.getOverlap at h
  by_cases hc : max a.start b.start < min a.stop b.stop
  · exact hc
  · simp [hc] at h

lemma getOverlap_eq_none_imp (a b : OpenInterval)
    (h : OpenInterval.getOverlap a b = none) :
    ¬ max a.start b.start < min a.stop b.stop := by
  intro hc
  unfold OpenInterval.getOverlap at h
  simp [hc] at h

lemma specFeaturesGo_nil_of_ge (q : OpenInterval) (ig : Bool) :
    ∀ (rest : List Feature) (t : ℤ), (∀ f ∈ rest, 0 ≤ f.getLength) → q.stop ≤ t →
      specFeaturesGo q ig t rest = [] := by
  intro rest
  induction rest with
  | nil => intro t _ _; simp [specFeaturesGo]
  | cons f rest ih =>
    intro t hlen hge
    have hfl : 0 ≤ f.getLength := hlen f (by simp)
    have hrest : ∀ g ∈ rest, 0 ≤ g.getLength := fun g hg => hlen g (by simp [hg])
    have hnext : q.stop ≤ t + f.getLength := by omega
    have hov : OpenInterval.getOverlap ⟨t, t + f.getLength⟩ q = none := by
      unfold OpenInterval.getOverlap
      rw [if_neg]
      intro hlt
      have h1 : (t : ℤ) ≤ max t q.start := le_max_left _ _
      have h2 : min (t + f.getLength) q.stop ≤ q.stop := min_le_right _ _
      simp only at hlt
      omega
    simp only [specFeaturesGo]
    cases hskip : !ig && NavigationContext.isGapFeature f with
    | true => simp only [hskip, if_true]; exact ih (t + f.getLength) hrest hnext
    | false =>
      simp only [hskip, Bool.false_eq_true, if_false, hov]
      exact ih (t + f.getLength) hrest hnext

lemma giiGo_eq_spec (ctx : NavigationContext) (q : OpenInterval) (ig : Bool) :
    ∀ (rest : List Feature) (t : ℤ) (acc : List FeatureSegment),
      (∀ f ∈ rest, 0 < f.getLength) →
      (∀ (pre : List Feature) (f : Feature) (post : List Feature), rest = pre ++ f :: post →
        ctx.getFeatureStart f = .ok (t + sumLengths pre)) →
      (acc ≠ [] → ∃ s0 L0 : ℤ, 0 < L0 ∧ s0 + L0 ≤ t ∧
        max s0 q.start < min (s0 + L0) q.stop) →
      ctx.getFeaturesInIntervalGo q ig rest acc = .ok (acc ++ specFeaturesGo q ig t rest) := by
  intro rest
  induction rest with
  | nil =>
    intro t acc _ _ _
    simp [NavigationContext.getFeaturesInIntervalGo, specFeaturesGo]
  | cons f rest ih =>
    intro t acc hlen hstart hacc
    have hflen : 0 < f.getLength := hlen f (by simp)
    have hfstart : ctx.getFeatureStart f = .ok t := by
      have h := hstart [] f rest rfl
      simpa [sumLengths] using h
    have hstart' : ∀ (pre : List Feature) (g : Feature) (post : List Feature),
        rest = pre ++ g :: post →
        ctx.getFeatureStart g = .ok (t + f.getLength + sumLengths pre) := by
      intro pre g post hsp
      have h := hstart (f :: pre) g post (by simp [hsp])
      have heq : t + sumLengths (f :: pre) = t + f.getLength + sumLengths pre := by
        simp [sumLengths]
        ring
      rw [heq] at h
      exact h
    have hlen' : ∀ g ∈ rest, 0 < g.getLength := fun g hg => hlen g (by simp [hg])
    simp only [NavigationContext.getFeaturesInIntervalGo, specFeaturesGo]
    cases hskip : !ig && NavigationContext.isGapFeature f with
    | true =>
      simp only [hskip, if_true]
      apply ih (t + f.getLength) acc hlen' hstart'
      intro hne
      obtain ⟨s0, L0, h1, h2, h3⟩ := hacc hne
      exact ⟨s0, L0, h1, by omega, h3⟩
    | false =>
      simp only [hskip, Bool.false_eq_true, if_false, hfstart]
      cases hov : OpenInterval.getOverlap ⟨t, t + f.getLength⟩ q with
      | some overlap =>
        dsimp only
        have hrec := ih (t + f.getLength)
          (acc ++ [⟨f, overlap.start - t, overlap.stop - t⟩]) hlen' hstart'
          (fun _ => ⟨t, f.getLength, hflen, le_refl _, by
            have := getOverlap_eq_some_imp _ _ _ hov
            simpa using this⟩)
        rw [hrec]
        simp
      | none =>
        dsimp only
        have hnov := getOverlap_eq_none_imp _ _ hov
        simp only at hnov
        by_cases hacc0 : acc = []
        · subst hacc0
          simp only [List.length_nil, gt_iff_lt, lt_irrefl, if_false]
          have hrec := ih (t + f.getLength) [] hlen' hstart' (fun h => absurd rfl h)
          simpa using hrec
        · obtain ⟨s0, L0, hL0, hle, hov0⟩ := hacc hacc0
          have hq1 : q.start < s0 + L0 := by
            have ha : q.start ≤ max s0 q.start := le_max_right _ _
            have hb : min (s0 + L0) q.stop ≤ s0 + L0 := min_le_left _ _
            omega
          have hq3 : q.start < t := by omega
          have hstop : q.stop ≤ t := by
            rcases le_or_lt q.stop t with h | h
            · exact h
            · exfalso
              apply hnov
              rw [max_eq_left (le_of_lt hq3)]
              exact lt_min (by omega) h
          have hspec : specFeaturesGo q ig (t + f.getLength) rest = [] :=
            specFeaturesGo_nil_of_ge q ig rest (t + f.getLength)
              (fun g hg => le_of_lt (hlen' g hg)) (by omega)
          rw [if_pos (by
            rcases acc with _ | ⟨a, acc⟩
            · exact absurd rfl hacc0
            · simp)]
          rw [hspec]
          simp

/-- The context of the C5 counterexample: a 10bp feature, a zero-length
feature, then another 10bp feature, all ordinary and pairwise distinct. -/
def ctxZeroLen : NavigationContext :=
  ⟨"c5", [⟨"A", ⟨"chr1", 0, 10⟩, 0⟩, ⟨"Z", ⟨"chr1", 20, 20⟩, 1⟩, ⟨"C", ⟨"chr1", 30, 40⟩, 2⟩]⟩

/-- Claim C5 counterexample: on a successfully constructible context whose
middle feature has zero length, `getFeaturesInInterval` over the query
`[0, 21)` returns only the first feature's segment — the zero-length feature
triggers the early termination — although the third feature (context span
`[10, 20)`) also overlaps the query, as the spec-faithful enumeration
shows. -/
theorem claimC5_counterexample :
    ctxZeroLen.getFeaturesInInterval 0 21 true = .ok [⟨⟨"A", ⟨"chr1", 0, 10⟩, 0⟩, 0, 10⟩] ∧
    specFeaturesInInterval ctxZeroLen 0 21 true =
      [⟨⟨"A", ⟨"chr1", 0, 10⟩, 0⟩, 0, 10⟩, ⟨⟨"C", ⟨"chr1", 30, 40⟩, 2⟩, 0, 10⟩] ∧
    NavigationContext.make ("c5") ctxZeroLen.features = .ok ctxZeroLen := by
  refine ⟨by decide, by decide, by decide⟩

/-- Claim C5 amended: on every successfully built context all of whose
features have strictly positive length, `getFeaturesInInterval` returns
exactly one `FeatureSegment` per feature whose context span overlaps the
half-open query (skipping gap features when `includeGaps` is false), in
feature order, each clipped to the query; under that proviso the early
termination never drops an overlapping feature. -/
theorem claimC5_amended :
    ∀ (nm : String) (fs : List Feature) (ctx : NavigationContext) (qs qe : ℤ) (ig : Bool),
      NavigationContext.make nm fs = .ok ctx →
      (∀ f ∈ fs, 0 < f.getLength) →
      ctx.getFeaturesInInterval qs qe ig = .ok (specFeaturesInInterval ctx qs qe ig) := by
  intro nm fs ctx qs qe ig hmk hlen
  obtain ⟨hctx, hnd⟩ := make_ok nm fs ctx hmk
  subst hctx
  unfold NavigationContext.getFeaturesInInterval specFeaturesInInterval
  have h := giiGo_eq_spec ⟨nm, fs⟩ ⟨qs, qe⟩ ig fs 0 [] hlen
    (by
      intro pre f post hsp
      have hnp : f ∉ pre := by
        intro hmem
        have hnd2 := hnd
        rw [hsp, List.nodup_append] at hnd2
        exact hnd2.2.2 hmem (List.mem_cons_self f post)
      have hg := getFeatureStart_of_split nm pre post f hnp
      rw [show (⟨nm, fs⟩ : NavigationContext) = ⟨nm, pre ++ f :: post⟩ from by rw [← hsp]]
      rw [hg]
      simp)
    (fun h => absurd rfl h)
  simpa using h

/-- Claim C5 witness: the amended theorem applied to the all-positive-length
gapless example context over the query `[0, 25)`. -/
theorem claimC5_amended_witness :
    ctxGapless.getFeaturesInInterval 0 25 true =
      .ok (specFeaturesInInterval ctxGapless 0 25 true) :=
  claimC5_amended ("gapless") ctxGapless.features ctxGapless 0 25 true (by decide) (by decide)

/-- JavaScript `\w`: ASCII letters, digits, and underscore. -/
def isWordChar (c : Char) : Bool := c.isAlphanum || c == '_'

/-- A character of the regex class `[\w:]`. -/
def isWordColonChar (c : Char) : Bool := isWordChar c || c == ':'

/-- Source: the test `str.match(/([\w:]+):(\d+)-(\d+)/)` in `parse`.  The
regex is unanchored, so it matches exactly when SOME substring matches; a
match exists exactly when a minimal one does: a `[\w:]` character immediately
before a colon at position `q`, a nonempty all-digit run filling the gap to a
dash at position `r`, and a digit right after the dash (shrinking the first
group to one character and the last digit run to one digit preserves
matching, so this search over the two positions is equivalent to the regex
engine's test). -/
def locusPatternMatches (s : List Char) : Bool :=
  (List.range s.length).any fun q =>
    (List.range s.length).any fun r =>
      decide (1 ≤ q) && decide (q + 2 ≤ r) && decide (r + 1 < s.length) &&
      (s.getD q ' ' == ':') && isWordColonChar (s.getD (q - 1) ' ') &&
      (s.getD r ' ' == '-') &&
      ((List.range' (q + 1) (r - (q + 1))).all fun m => (s.getD m ' ').isDigit) &&
      (s.getD (r + 1) ' ').isDigit

/-- Whether the locus regex of `parse` matches somewhere in the string. -/
def regexMatchesLocus (str : String) : Bool := locusPatternMatches str.toList

/-- Numeric value of a digit run. -/
def digitsToNat (ds : List Char) : ℕ := ds.foldl (fun a c => a * 10 + (c.toNat - '0'.toNat)) 0

/-- Index of the last occurrence of a character, if any. -/
def lastIdxOf (c : Char) (s : List Char) : Option ℕ :=
  ((List.range s.length).filter (fun i => s.getD i ' ' == c)).getLast?

/-- Modelled from the spec: `ChromosomeInterval.parse` (not among the
provided sources) reads `"chr:start-end"` — a chromosome name of `[\w:]`
characters, 0-indexed end-exclusive non-negative integers with
`start < end` — and fails on malformed input.  The greedy first group makes
the separating colon the last colon of the string. -/
def chromosomeIntervalParse (str : String) : Option ChromosomeInterval :=
  let s := str.toList
  match lastIdxOf (':') s with
  | none => none
  | some q =>
    let chrPart := s.take q
    let rest := s.drop (q + 1)
    match rest.findIdx? (fun c => c == '-') with
    | none => none
    | some d =>
      let d1 := rest.take d
      let d2 := rest.drop (d + 1)
      if decide (chrPart ≠ []) && chrPart.all isWordColonChar &&
          decide (d1 ≠ []) && d1.all Char.isDigit &&
          decide (d2 ≠ []) && d2.all Char.isDigit &&
          decide ((digitsToNat d1 : ℤ) < (digitsToNat d2 : ℤ)) then
        some ⟨String.mk chrPart, (digitsToNat d1 : ℤ), (digitsToNat d2 : ℤ)⟩
      else
        none

/-- Source: `NavigationContext.parse` — two grammars.  When the locus regex
matches, the string goes through `ChromosomeInterval.parse` and genomic
lookup, and the first resulting context interval is required to exist
(`RangeError` otherwise).  When it does not, the string is matched exactly
against feature names (`RangeError` when none matches) and the matching
feature's full context span is returned. -/
def NavigationContext.parse (ctx : NavigationContext) (str : String) :
    Except NavErr OpenInterval :=
  if regexMatchesLocus str then
    match chromosomeIntervalParse str with
    | none => .error .parseError
    | some locus =>
      match ctx.convertGenomeIntervalToBases locus with
      | .error e => .error e
      | .ok contextIntervals =>
        match contextIntervals with
        | [] => .error .rangeError
        | contextCoords :: _ => .ok contextCoords
  else
    match ctx.features.find? (fun feature => feature.getName == str) with
    | none => .error .rangeError
    | some feature => ctx.convertFeatureSegmentToContextCoordinates (fullSegment feature)

/-- Claim C6: on a string of the locus form `"chr:start-end"` (the regex
matches and `ChromosomeInterval.parse` succeeds), `parse` returns the first
context interval produced by genomic lookup of that locus and raises a
`RangeError` when the lookup yields no interval; on any other string (the
regex does not match) it returns the full context span of the feature whose
name equals the string exactly, and raises a `RangeError` when no feature
name matches. -/
theorem claimC6_parse :
    (∀ (ctx : NavigationContext) (str : String) (locus : ChromosomeInterval)
        (i : OpenInterval) (rest : List OpenInterval),
      regexMatchesLocus str = true →
      chromosomeIntervalParse str = some locus →
      ctx.convertGenomeIntervalToBases locus = .ok (i :: rest) →
      ctx.parse str = .ok i) ∧
    (∀ (ctx : NavigationContext) (str : String) (locus : ChromosomeInterval),
      regexMatchesLocus str = true →
      chromosomeIntervalParse str = some locus →
      ctx.convertGenomeIntervalToBases locus = .ok [] →
      ctx.parse str = .error .rangeError) ∧
    (∀ (ctx : NavigationContext) (str : String),
      regexMatchesLocus str = false →
      ctx.features.find? (fun feature => feature.getName == str) = none →
      ctx.parse str = .error .rangeError) ∧
    (∀ (ctx : NavigationContext) (str : String) (feature : Feature) (s : ℤ),
      regexMatchesLocus str = false →
      ctx.features.find? (fun feature => feature.getName == str) = some feature →
      ctx.getFeatureStart feature = .ok s →
      ctx.parse str = .ok ⟨s, s + feature.getLength⟩) := by
  refine ⟨?_, ?_, ?_, ?_⟩
  · intro ctx str locus i rest h1 h2 h3
    unfold NavigationContext.parse
    rw [if_pos h1, h2]
    dsimp only
    rw [h3]
  · intro ctx str locus h1 h2 h3
    unfold NavigationContext.parse
    rw [if_pos h1, h2]
    dsimp only
    rw [h3]
  · intro ctx str h1 h2
    unfold NavigationContext.parse
    rw [if_neg (by simp [h1]), h2]
  · intro ctx str feature s h1 h2 h3
    unfold NavigationContext.parse
    rw [if_neg (by simp [h1]), h2]
    dsimp only
    unfold NavigationContext.convertFeatureSegmentToContextCoordinates fullSegment
    rw [h3]
    dsimp only
    rw [show s + 0 = s from by ring]

/-- Context with a single 1000bp chromosome-1 feature, for the parse
examples. -/
def ctxParse : NavigationContext := ⟨"hg", [⟨"chr1", ⟨"chr1", 0, 1000⟩, 0⟩]⟩

/-- Claim C6 witness: the spec's two parse cases — `parse("chr1:100-200")`
on a context containing that locus yields the context interval `[100, 200)`,
and `parse("NoSuchFeature")` raises a range error. -/
theorem claimC6_parse_witness :
    ctxParse.parse ("chr1:100-200") = .ok ⟨100, 200⟩ ∧
    ctxParse.parse ("NoSuchFeature") = .error .rangeError := by
  constructor
  · exact claimC6_parse.1 ctxParse ("chr1:100-200") ⟨"chr1", 100, 200⟩ ⟨100, 200⟩ []
      (by decide) (by decide) (by decide)
  · exact claimC6_parse.2.2.1 ctxParse ("NoSuchFeature") (by decide) (by decide)

/-- Modelled from the spec: `DisplayedRegionModel` (an external collaborator)
supplies the navigation context (`getNavigationContext`) and the view
window's context-coordinate bounds (`getContextCoordinates`). -/
structure DisplayedRegionModel where
  navContext : NavigationContext
  contextCoordinates : OpenInterval
deriving Repr

/-- Modelled from the spec: `new LinearDrawingModel(viewRegion, width)` — a
linear transform parameterized by the view window and the pixel width,
mapping a context coordinate to its pixel offset.  The real model divides
exactly; integer division is used here and every theorem below is
independent of the transform's values (witnesses use exactly divisible
data). -/
def mkLinearDrawingModel (viewRegion : DisplayedRegionModel) (width : ℤ) : LinearDrawingModel :=
  ⟨fun base =>
    (base - viewRegion.contextCoordinates.start) * width /
      viewRegion.contextCoordinates.getLength⟩

/-- Source: `GenomeInteraction` — an interaction carries two genomic loci. -/
structure GenomeInteraction where
  locus1 : ChromosomeInterval
  locus2 : ChromosomeInterval
deriving DecidableEq, Repr

/-- Source: class `PlacedInteraction` — an interaction with its two pixel
spans, `xSpan1` guaranteed to have the lower start. -/
structure PlacedInteraction where
  interaction : GenomeInteraction
  xSpan1 : OpenInterval
  xSpan2 : OpenInterval
deriving DecidableEq, Repr

/-- Source: the `PlacedInteraction` constructor, which swaps the two spans
when the first one starts later, ensuring `xSpan1.start ≤ xSpan2.start`. -/
def mkPlacedInteraction (interaction : GenomeInteraction) (xSpan1 xSpan2 : OpenInterval) :
    PlacedInteraction :=
  if xSpan1.start ≤ xSpan2.start then
    ⟨interaction, xSpan1, xSpan2⟩
  else
    ⟨interaction, xSpan2, xSpan1⟩

/-- Inner loop of `placeInteractions`: one fixed clamped location of the
first locus against every clamped location of the second, skipping the
locations that the view clamped away (`null` entries). -/
def pairLoopInner (interaction : GenomeInteraction) (drawModel : LinearDrawingModel)
    (location1 : OpenInterval) : List (Option OpenInterval) → List PlacedInteraction
  | [] => []
  | some location2 :: rest =>
    mkPlacedInteraction interaction (drawModel.baseSpanToXSpan location1)
        (drawModel.baseSpanToXSpan location2) ::
      pairLoopInner interaction drawModel location1 rest
  | none :: rest => pairLoopInner interaction drawModel location1 rest

/-- Outer loop of `placeInteractions`: the cross-product of the two clamped
location lists, in iteration order, dropping pairs with a clamped-away
member. -/
def pairLoop (interaction : GenomeInteraction) (drawModel : LinearDrawingModel) :
    List (Option OpenInterval) → List (Option OpenInterval) → List PlacedInteraction
  | [], _ => []
  | some location1 :: rest, locations2 =>
    pairLoopInner interaction drawModel location1 locations2 ++
      pairLoop interaction drawModel rest locations2
  | none :: rest, locations2 => pairLoop interaction drawModel rest locations2

/-- The per-interaction loop of `FeaturePlacer.placeInteractions`: map each
locus to context intervals, clamp each to the view bounds, and emit one
`PlacedInteraction` per surviving pair. -/
def placeInteractionsGo (ctx : NavigationContext) (drawModel : LinearDrawingModel)
    (bounds : OpenInterval) : List GenomeInteraction → Except NavErr (List PlacedInteraction)
  | [] => .ok []
  | interaction :: rest =>
    match ctx.convertGenomeIntervalToBases interaction.locus1 with
    | .error e => .error e
    | .ok contextLocations1 =>
      match ctx.convertGenomeIntervalToBases interaction.locus2 with
      | .error e => .error e
      | .ok contextLocations2 =>
        match placeInteractionsGo ctx drawModel bounds rest with
        | .error e => .error e
        | .ok restPlacements =>
          .ok (pairLoop interaction drawModel
              (contextLocations1.map (fun location => location.getOverlap bounds))
              (contextLocations2.map (fun location => location.getOverlap bounds)) ++
            restPlacements)

/-- Source: `FeaturePlacer.placeInteractions`. -/
def FeaturePlacer.placeInteractions (interactions : List GenomeInteraction)
    (viewRegion : DisplayedRegionModel) (width : ℤ) : Except NavErr (List PlacedInteraction) :=
  placeInteractionsGo viewRegion.navContext (mkLinearDrawingModel viewRegion width)
    viewRegion.contextCoordinates interactions

/-- Number of context intervals of a locus that survive clamping to the view
bounds. -/
def survivingCount (ctx : NavigationContext) (bounds : OpenInterval)
    (locus : ChromosomeInterval) : ℕ :=
  ((okValue (ctx.convertGenomeIntervalToBases locus) []).map
    (fun location => location.getOverlap bounds)).countP (fun o => o.isSome)

lemma mkPlacedInteraction_ordered (interaction : GenomeInteraction) (a b : OpenInterval) :
    (mkPlacedInteraction interaction a b).xSpan1.start ≤
      (mkPlacedInteraction interaction a b).xSpan2.start := by
  unfold mkPlacedInteraction
  split
  · assumption
  · dsimp only
    omega

lemma pairLoopInner_ordered (interaction : GenomeInteraction) (drawModel : LinearDrawingModel)
    (location1 : OpenInterval) :
    ∀ (locations2 : List (Option OpenInterval)) (pi : PlacedInteraction),
      pi ∈ pairLoopInner interaction drawModel location1 locations2 →
      pi.xSpan1.start ≤ pi.xSpan2.start := by
  intro locations2
  induction locations2 with
  | nil => intro pi h; simp [pairLoopInner] at h
  | cons o rest ih =>
    intro pi h
    cases o with
    | none => exact ih pi (by simpa [pairLoopInner] using h)
    | some location2 =>
      simp only [pairLoopInner, List.mem_cons] at h
      rcases h with h | h
      · rw [h]; exact mkPlacedInteraction_ordered _ _ _
      · exact ih pi h

lemma pairLoop_ordered (interaction : GenomeInteraction) (drawModel : LinearDrawingModel) :
    ∀ (locations1 locations2 : List (Option OpenInterval)) (pi : PlacedInteraction),
      pi ∈ pairLoop interaction drawModel locations1 locations2 →
      pi.xSpan1.start ≤ pi.xSpan2.start := by
  intro locations1
  induction locations1 with
  | nil => intro locations2 pi h; simp [pairLoop] at h
  | cons o rest ih =>
    intro locations2 pi h
    cases o with
    | none => exact ih locations2 pi (by simpa [pairLoop] using h)
    | some location1 =>
      simp only [pairLoop, List.mem_append] at h
      rcases h with h | h
      · exact pairLoopInner_ordered interaction drawModel location1 locations2 pi h
      · exact ih locations2 pi h

lemma pairLoopInner_length (interaction : GenomeInteraction) (drawModel : LinearDrawingModel)
    (location1 : OpenInterval) :
    ∀ locations2 : List (Option OpenInterval),
      (pairLoopInner interaction drawModel location1 locations2).length =
        locations2.countP (fun o => o.isSome) := by
  intro locations2
  induction locations2 with
  | nil => simp [pairLoopInner]
  | cons o rest ih =>
    cases o with
    | none => simp [pairLoopInner, ih, List.countP_cons]
    | some location2 => simp [pairLoopInner, ih, List.countP_cons]

lemma pairLoop_length (interaction : GenomeInteraction) (drawModel : LinearDrawingModel) :
    ∀ locations1 locations2 : List (Option OpenInterval),
      (pairLoop interaction drawModel locations1 locations2).length =
        locations1.countP (fun o => o.isSome) * locations2.countP (fun o => o.isSome) := by
  intro locations1
  induction locations1 with
  | nil => intro locations2; simp [pairLoop]
  | cons o rest ih =>
    intro locations2
    cases o with
    | none => simp [pairLoop, ih, List.countP_cons]
    | some location1 =>
      simp [pairLoop, ih, List.countP_cons, pairLoopInner_length]
      ring

lemma find_zip_mem (f : Feature) :
    ∀ (fs : List Feature) (t : ℤ), f ∈ fs →
      ∃ s : ℤ, (fs.zip (startsFrom t fs)).find? (fun p => decide (p.1 = f)) = some (f, s) := by
  intro fs
  induction fs with
  | nil => intro t h; simp at h
  | cons g rest ih =>
    intro t h
    by_cases hgf : g = f
    · subst hgf
      refine ⟨t, ?_⟩
      simp only [startsFrom, List.zip_cons_cons]
      rw [List.find?_cons_of_pos _ (by simp)]
    · have hmem : f ∈ rest := by
        rcases List.mem_cons.mp h with h | h
        · exact absurd h.symm hgf
        · exact h
      obtain ⟨s, hs⟩ := ih (t + g.getLength) hmem
      refine ⟨s, ?_⟩
      simp only [startsFrom, List.zip_cons_cons]
      rw [List.find?_cons_of_neg _ (by simp [hgf])]
      exact hs

lemma getFeatureStart_isOk_of_mem (ctx : NavigationContext) (f : Feature)
    (h : f ∈ ctx.features) : ∃ s, ctx.getFeatureStart f = .ok s := by
  obtain ⟨s, hs⟩ := find_zip_mem f ctx.features 0 h
  refine ⟨s, ?_⟩
  unfold NavigationContext.getFeatureStart NavigationContext.sortedFeatureStarts
  rw [hs]

lemma getGenomeOverlap_feature (s : FeatureSegment) (ci : ChromosomeInterval)
    (ov : FeatureSegment) (h : s.getGenomeOverlap ci = some ov) : ov.feature = s.feature := by
  unfold FeatureSegment.getGenomeOverlap at h
  dsimp only at h
  split at h
  · split at h
    · have := Option.some.inj h
      rw [← this]
    · exact Option.noConfusion h
  · exact Option.noConfusion h

lemma cgibGo_isOk (ctx : NavigationContext) (ci : ChromosomeInterval) :
    ∀ fs : List Feature, (∀ f ∈ fs, f ∈ ctx.features) →
      ∃ l, ctx.convertGenomeIntervalToBasesGo ci fs = .ok l := by
  intro fs
  induction fs with
  | nil => intro _; exact ⟨[], by simp [NavigationContext.convertGenomeIntervalToBasesGo]⟩
  | cons f rest ih =>
    intro h
    obtain ⟨l, hl⟩ := ih (fun g hg => h g (List.mem_cons_of_mem f hg))
    cases hov : (fullSegment f).getGenomeOverlap ci with
    | none =>
      refine ⟨l, ?_⟩
      simp only [NavigationContext.convertGenomeIntervalToBasesGo, hov]
      exact hl
    | some ov =>
      have hovf : ov.feature = f := getGenomeOverlap_feature _ _ _ hov
      have hf : ov.feature ∈ ctx.features := by
        rw [hovf]
        exact h f (List.mem_cons_self f rest)
      obtain ⟨s, hs⟩ := getFeatureStart_isOk_of_mem ctx ov.feature hf
      refine ⟨⟨s + ov.relativeStart, s + ov.relativeEnd⟩ :: l, ?_⟩
      simp only [NavigationContext.convertGenomeIntervalToBasesGo, hov]
      unfold NavigationContext.convertFeatureSegmentToContextCoordinates
      rw [hs]
      dsimp only
      rw [hl]

lemma convertGenomeIntervalToBases_isOk (ctx : NavigationContext) (ci : ChromosomeInterval) :
    ∃ l, ctx.convertGenomeIntervalToBases ci = .ok l := by
  unfold NavigationContext.convertGenomeIntervalToBases
  apply cgibGo_isOk
  intro f hf
  unfold NavigationContext.featuresForChr at hf
  exact (List.mem_filter.mp hf).1

/-- Claim C8: `placeInteractions` never fails, every emitted
`PlacedInteraction` has `xSpan1.start ≤ xSpan2.start` (the first pixel span
has the smaller start), and exactly one `PlacedInteraction` is emitted per
pair of surviving clamped context intervals of the interaction's two
loci. -/
theorem claimC8_interaction_placement :
    ∀ (interactions : List GenomeInteraction) (viewRegion : DisplayedRegionModel) (width : ℤ),
      ∃ l, FeaturePlacer.placeInteractions interactions viewRegion width = .ok l ∧
        (∀ pi ∈ l, pi.xSpan1.start ≤ pi.xSpan2.start) ∧
        l.length = (interactions.map (fun interaction =>
          survivingCount viewRegion.navContext viewRegion.contextCoordinates
              interaction.locus1 *
            survivingCount viewRegion.navContext viewRegion.contextCoordinates
              interaction.locus2)).sum := by
  intro interactions viewRegion width
  unfold FeaturePlacer.placeInteractions
  induction interactions with
  | nil => exact ⟨[], rfl, by simp, by simp [placeInteractionsGo]⟩
  | cons interaction rest ih =>
    obtain ⟨lr, hlr, hordr, hlenr⟩ := ih
    obtain ⟨l1, hl1⟩ := convertGenomeIntervalToBases_isOk viewRegion.navContext interaction.locus1
    obtain ⟨l2, hl2⟩ := convertGenomeIntervalToBases_isOk viewRegion.navContext interaction.locus2
    refine ⟨pairLoop interaction (mkLinearDrawingModel viewRegion width)
        (l1.map (fun location => location.getOverlap viewRegion.contextCoordinates))
        (l2.map (fun location => location.getOverlap viewRegion.contextCoordinates)) ++ lr,
      ?_, ?_, ?_⟩
    · simp only [placeInteractionsGo, hl1, hl2, hlr]
    · intro pi hpi
      rcases List.mem_append.mp hpi with h | h
      · exact pairLoop_ordered _ _ _ _ pi h
      · exact hordr pi h
    · simp only [List.length_append, pairLoop_length, hlenr, List.map_cons, List.sum_cons]
      congr 1
      unfold survivingCount okValue
      rw [hl1, hl2]

/-- Claim C8 witness: a single interaction on a one-feature context placed
into a 100-pixel view; the placed pair keeps the lower-start span first. -/
theorem claimC8_interaction_placement_witness :
    (⟨⟨⟨"chr1", 0, 10⟩, ⟨"chr1", 50, 60⟩⟩, ⟨0, 10⟩, ⟨50, 60⟩⟩ : PlacedInteraction).xSpan1.start ≤
      (⟨⟨⟨"chr1", 0, 10⟩, ⟨"chr1", 50, 60⟩⟩, ⟨0, 10⟩, ⟨50, 60⟩⟩ :
        PlacedInteraction).xSpan2.start := by
  obtain ⟨l, hok, hord, hlen⟩ := claimC8_interaction_placement
    [⟨⟨"chr1", 0, 10⟩, ⟨"chr1", 50, 60⟩⟩] ⟨ctxParse, ⟨0, 100⟩⟩ 100
  have hval : FeaturePlacer.placeInteractions [⟨⟨"chr1", 0, 10⟩, ⟨"chr1", 50, 60⟩⟩]
      ⟨ctxParse, ⟨0, 100⟩⟩ 100 =
      .ok [⟨⟨⟨"chr1", 0, 10⟩, ⟨"chr1", 50, 60⟩⟩, ⟨0, 10⟩, ⟨50, 60⟩⟩] := by decide
  rw [hval] at hok
  have hl : l = [⟨⟨⟨"chr1", 0, 10⟩, ⟨"chr1", 50, 60⟩⟩, ⟨0, 10⟩, ⟨50, 60⟩⟩] :=
    (Except.ok.inj hok.symm)
  apply hord
  rw [hl]
  exact List.mem_singleton.mpr rfl

/-- Pixel-space interval with rational endpoints.  The pixel spans produced
by `placeFeatureSegments` come from an exact division, so unlike the integer
coordinate intervals they may be non-integral; this type plays the role of
the `OpenInterval` values stored in `PlacedSegment.xSpan`. -/
structure RatInterval where
  start : ℚ
  stop : ℚ
deriving DecidableEq, Repr

/-- Source: interface `PlacedFeature` — a feature, its visible part, its
context location (the visible part in context coordinates), and its pixel
span. -/
structure PlacedFeature where
  feature : Feature
  visiblePart : FeatureSegment
  contextLocation : OpenInterval
  xSpan : OpenInterval
deriving DecidableEq, Repr

/-- Source: interface `PlacedSegment` — a segment truncated to the visible
part, with its pixel span. -/
structure PlacedSegment where
  segment : FeatureSegment
  xSpan : RatInterval
deriving DecidableEq, Repr

/-- JavaScript division `a / b` as used for the pixels-per-base ratio: a
finite rational exactly when the divisor is non-zero; division by zero gives
`Infinity`/`NaN`, modelled as `none`. -/
def jsDiv (a b : ℤ) : Option ℚ := if b = 0 then none else some ((a : ℚ) / (b : ℚ))

/-- The loop of `placeFeatureSegments`: intersect each candidate segment
with the parent's visible part, drop it when there is no overlap, and map
survivors linearly into pixel space using the pixels-per-base ratio.  A
survivor's pixel span is well-defined only when the ratio is (`none`
propagates exactly when a surviving segment actually uses the undefined
ratio). -/
def placeFeatureSegmentsGo (placedFeature : PlacedFeature) (pixelsPerBase : Option ℚ) :
    List FeatureSegment → Option (List PlacedSegment)
  | [] => some []
  | segment :: rest =>
    match segment.getOverlap placedFeature.visiblePart with
    | none => placeFeatureSegmentsGo placedFeature pixelsPerBase rest
    | some visibleSegment =>
      match pixelsPerBase with
      | none => none
      | some ppb =>
        match placeFeatureSegmentsGo placedFeature pixelsPerBase rest with
        | none => none
        | some restPlacements =>
          some (⟨visibleSegment,
            ⟨(placedFeature.xSpan.start : ℚ) +
                ((visibleSegment.relativeStart - placedFeature.visiblePart.relativeStart : ℤ) :
                  ℚ) * ppb,
              (placedFeature.xSpan.start : ℚ) +
                ((visibleSegment.relativeStart - placedFeature.visiblePart.relativeStart : ℤ) :
                  ℚ) * ppb +
                ((visibleSegment.getLength : ℤ) : ℚ) * ppb⟩⟩ :: restPlacements)

/-- Source: `FeaturePlacer.placeFeatureSegments` — computes
`pixelsPerBase = xSpan.getLength() / contextLocation.getLength()` once, then
runs the loop above. -/
def FeaturePlacer.placeFeatureSegments (placedFeature : PlacedFeature)
    (segments : List FeatureSegment) : Option (List PlacedSegment) :=
  placeFeatureSegmentsGo placedFeature
    (jsDiv placedFeature.xSpan.getLength placedFeature.contextLocation.getLength) segments

lemma placeFeatureSegmentsGo_some (placedFeature : PlacedFeature) (ppb : ℚ) :
    ∀ segments : List FeatureSegment,
      ∃ l, placeFeatureSegmentsGo placedFeature (some ppb) segments = some l ∧
        l.length = segments.countP
          (fun segment => (segment.getOverlap placedFeature.visiblePart).isSome) := by
  intro segments
  induction segments with
  | nil => exact ⟨[], rfl, by simp⟩
  | cons segment rest ih =>
    obtain ⟨l, hl, hlen⟩ := ih
    cases hov : segment.getOverlap placedFeature.visiblePart with
    | none =>
      refine ⟨l, ?_, ?_⟩
      · simp only [placeFeatureSegmentsGo, hov]
        exact hl
      · rw [hlen, List.countP_cons]
        simp [hov]
    | some visibleSegment =>
      refine ⟨⟨visibleSegment,
          ⟨(placedFeature.xSpan.start : ℚ) +
              ((visibleSegment.relativeStart - placedFeature.visiblePart.relativeStart : ℤ) :
                ℚ) * ppb,
            (placedFeature.xSpan.start : ℚ) +
              ((visibleSegment.relativeStart - placedFeature.visiblePart.relativeStart : ℤ) :
                ℚ) * ppb +
              ((visibleSegment.getLength : ℤ) : ℚ) * ppb⟩⟩ :: l, ?_, ?_⟩
      · simp only [placeFeatureSegmentsGo, hov]
        rw [hl]
      · rw [List.countP_cons]
        simp [hov, hlen]

/-- Claim C10: whenever the parent placement's `contextLocation` has
strictly positive length, `placeFeatureSegments` is total — the
pixels-per-base ratio is a division with non-zero divisor, every returned
pixel span is well-defined, and segments with no overlap with the parent's
visible part are dropped (one placement per overlapping segment) rather
than causing an error; and the positive-length precondition is required,
because with a zero-length `contextLocation` the unguarded division leaves a
surviving segment's span undefined. -/
theorem claimC10_segment_placement :
    (∀ (placedFeature : PlacedFeature) (segments : List FeatureSegment),
      0 < placedFeature.contextLocation.getLength →
      ∃ l, FeaturePlacer.placeFeatureSegments placedFeature segments = some l ∧
        l.length = segments.countP
          (fun segment => (segment.getOverlap placedFeature.visiblePart).isSome)) ∧
    (∃ (placedFeature : PlacedFeature) (segments : List FeatureSegment),
      placedFeature.contextLocation.getLength = 0 ∧
      FeaturePlacer.placeFeatureSegments placedFeature segments = none) := by
  constructor
  · intro placedFeature segments hpos
    have hdiv : jsDiv placedFeature.xSpan.getLength placedFeature.contextLocation.getLength =
        some ((placedFeature.xSpan.getLength : ℚ) /
          (placedFeature.contextLocation.getLength : ℚ)) := by
      unfold jsDiv
      rw [if_neg (by omega)]
    unfold FeaturePlacer.placeFeatureSegments
    rw [hdiv]
    exact placeFeatureSegmentsGo_some placedFeature _ segments
  · refine ⟨⟨⟨"A", ⟨"chr1", 0, 10⟩, 0⟩, ⟨⟨"A", ⟨"chr1", 0, 10⟩, 0⟩, 0, 5⟩, ⟨0, 0⟩, ⟨0, 0⟩⟩,
      [⟨⟨"A", ⟨"chr1", 0, 10⟩, 0⟩, 0, 5⟩], by decide, by decide⟩

/-- Claim C10 witness: the totality clause applied to a placement with a
5-base context location and one fully overlapping candidate segment. -/
theorem claimC10_segment_placement_witness :
    ∃ l, FeaturePlacer.placeFeatureSegments
        ⟨⟨"A", ⟨"chr1", 0, 10⟩, 0⟩, ⟨⟨"A", ⟨"chr1", 0, 10⟩, 0⟩, 0, 5⟩, ⟨0, 5⟩, ⟨0, 50⟩⟩
        [⟨⟨"A", ⟨"chr1", 0, 10⟩, 0⟩, 0, 5⟩] = some l ∧
      l.length = ([⟨⟨"A", ⟨"chr1", 0, 10⟩, 0⟩, 0, 5⟩] : List FeatureSegment).countP
        (fun segment => (segment.getOverlap
          (⟨⟨"A", ⟨"chr1", 0, 10⟩, 0⟩, 0, 5⟩ : FeatureSegment)).isSome) :=
  claimC10_segment_placement.1
    ⟨⟨"A", ⟨"chr1", 0, 10⟩, 0⟩, ⟨⟨"A", ⟨"chr1", 0, 10⟩, 0⟩, 0, 5⟩, ⟨0, 5⟩, ⟨0, 50⟩⟩
    [⟨⟨"A", ⟨"chr1", 0, 10⟩, 0⟩, 0, 5⟩] (by decide)
